import Mathlib

/-!
Verification of the command-tree / documentation-renderer core of
`azure-storage-blob-client` (`src/main.rs`) against its design spec.

Strings are modelled as `List Char` (`Str`); the command tree produced by the
argument-parsing library from the `#[derive(Parser)]` declarations is modelled
as the inductive `CommandNode`, whose `help` field stands for the externally
rendered long-help text of the node (`cmd.render_long_help()` in the source,
an external-library call that is a deterministic function of the node).
-/

/-- Strings of the embedding: lists of characters. -/
abbrev Str := List Char

/-- Coercion from Lean string literals into the embedding's strings. -/
def str (s : String) : Str := s.data

/-- A node of the command tree: name, declared positional arguments (their
ids), rendered long-help text, the `hide` attribute, and subcommands in
declaration order (`clap` adds no implicit `help` subcommand here because the
source sets `disable_help_subcommand = true`). -/
inductive CommandNode where
  | mk (name : Str) (positionals : List Str) (help : Str) (hide : Bool)
       (subcommands : List CommandNode)

/-- The node's command name (`cmd.get_name()`). -/
def CommandNode.name : CommandNode → Str
  | .mk n _ _ _ _ => n

/-- The node's declared positional-argument ids (`cmd.get_positionals()`). -/
def CommandNode.positionals : CommandNode → List Str
  | .mk _ p _ _ _ => p

/-- The node's rendered long-help text (`cmd.render_long_help()`). -/
def CommandNode.help : CommandNode → Str
  | .mk _ _ h _ _ => h

/-- The node's `hide` attribute (`#[command(hide = true)]`). -/
def CommandNode.hide : CommandNode → Bool
  | .mk _ _ _ hd _ => hd

/-- The node's subcommands in declaration order (`cmd.get_subcommands_mut()`). -/
def CommandNode.subcommands : CommandNode → List CommandNode
  | .mk _ _ _ _ s => s

/-- Replace a node's subcommand list, keeping everything else. -/
def CommandNode.withSubs : CommandNode → List CommandNode → CommandNode
  | .mk n p h hd _, s => .mk n p h hd s

mutual

/-- Apply `f` to the `hide` flag of every node of the tree. -/
def CommandNode.mapHide (f : Bool → Bool) : CommandNode → CommandNode
  | .mk n p h hd s => .mk n p h (f hd) (mapHideList f s)
termination_by t => sizeOf t

/-- `CommandNode.mapHide` on a list of nodes. -/
def mapHideList (f : Bool → Bool) : List CommandNode → List CommandNode
  | [] => []
  | c :: cs => c.mapHide f :: mapHideList f cs
termination_by cs => sizeOf cs

end

/-- The display fragment a positional argument contributes:
`format!("<{}>", positional.get_id().as_str().to_uppercase())`. -/
def fmtPos (p : Str) : Str := '<' :: (p.map Char.toUpper ++ ['>'])

/-- The display fragments a single node pushes onto `names`: its own name
followed by its positionals' fragments (source lines 97–102). -/
def nameAndPos (c : CommandNode) : List Str :=
  c.name :: c.positionals.map fmtPos

mutual

/-- `build_readme` from `src/main.rs` (lines 93–124): emit a heading of
`min(names.len(), 6)` `#` markers, the space-joined `names`, a fenced code
block with the node's long help, then recurse into every subcommand whose
name is not `"readme"`, passing down the extended `names`. -/
def build_readme (cmd : CommandNode) (names : List Str) : Str :=
  let names' := names ++ nameAndPos cmd
  List.replicate (min names'.length 6) '#'
    ++ str " " ++ List.intercalate (str " ") names'
    ++ str "\n\n```\n" ++ cmd.help ++ str "\n```\n"
    ++ build_readme_children cmd.subcommands names'
termination_by sizeOf cmd
decreasing_by
  cases cmd with
  | mk n p h hd s =>
      simp only [CommandNode.subcommands, CommandNode.mk.sizeOf_spec]
      omega

/-- The `for cmd in cmd.get_subcommands_mut()` loop of `build_readme`, with
its `continue` on children named `"readme"`. -/
def build_readme_children : List CommandNode → List Str → Str
  | [], _ => []
  | c :: cs, names =>
      (if c.name = str "readme" then [] else build_readme c names)
        ++ build_readme_children cs names
termination_by cs _ => sizeOf cs
decreasing_by
  all_goals simp only [List.cons.sizeOf_spec]
  all_goals omega

end

instance : Inhabited CommandNode := ⟨.mk [] [] [] false []⟩

/-- The Markdown section `build_readme` emits for a single node when invoked
with accumulated display fragments `names`: heading markers, the space-joined
display name, and the fenced help block (the non-recursive head of
`build_readme`). -/
def sectionFor (names : List Str) (cmd : CommandNode) : Str :=
  let names' := names ++ nameAndPos cmd
  List.replicate (min names'.length 6) '#'
    ++ str " " ++ List.intercalate (str " ") names'
    ++ str "\n\n```\n" ++ cmd.help ++ str "\n```\n"

mutual

/-- The sections emitted by `build_readme cmd names`, one per visited node, in
emission order. -/
def sectionsOf (cmd : CommandNode) (names : List Str) : List Str :=
  sectionFor names cmd
    :: sectionsOfChildren cmd.subcommands (names ++ nameAndPos cmd)
termination_by sizeOf cmd
decreasing_by
  cases cmd with
  | mk n p h hd s =>
      simp only [CommandNode.subcommands, CommandNode.mk.sizeOf_spec]
      omega

/-- `sectionsOf` over a subcommand list, skipping children named "readme". -/
def sectionsOfChildren : List CommandNode → List Str → List Str
  | [], _ => []
  | c :: cs, names =>
      (if c.name = str "readme" then [] else sectionsOf c names)
        ++ sectionsOfChildren cs names
termination_by cs _ => sizeOf cs
decreasing_by
  all_goals simp only [List.cons.sizeOf_spec]
  all_goals omega

end

mutual

/-- The nodes `build_readme` visits (emits a section for), in visit order. -/
def visitedNodes (cmd : CommandNode) : List CommandNode :=
  cmd :: visitedNodesChildren cmd.subcommands
termination_by sizeOf cmd
decreasing_by
  cases cmd with
  | mk n p h hd s =>
      simp only [CommandNode.subcommands, CommandNode.mk.sizeOf_spec]
      omega

/-- `visitedNodes` over a subcommand list, skipping children named "readme". -/
def visitedNodesChildren : List CommandNode → List CommandNode
  | [] => []
  | c :: cs =>
      (if c.name = str "readme" then [] else visitedNodes c)
        ++ visitedNodesChildren cs
termination_by cs => sizeOf cs
decreasing_by
  all_goals simp only [List.cons.sizeOf_spec]
  all_goals omega

end

mutual

/-- Every visited node paired with its chain of strict ancestors (root
first), in visit order. -/
def nodeChains (cmd : CommandNode) : List (List CommandNode × CommandNode) :=
  ([], cmd)
    :: (nodeChainsChildren cmd.subcommands).map (fun x => (cmd :: x.1, x.2))
termination_by sizeOf cmd
decreasing_by
  cases cmd with
  | mk n p h hd s =>
      simp only [CommandNode.subcommands, CommandNode.mk.sizeOf_spec]
      omega

/-- `nodeChains` over a subcommand list, skipping children named "readme". -/
def nodeChainsChildren :
    List CommandNode → List (List CommandNode × CommandNode)
  | [] => []
  | c :: cs =>
      (if c.name = str "readme" then [] else nodeChains c)
        ++ nodeChainsChildren cs
termination_by cs => sizeOf cs
decreasing_by
  all_goals simp only [List.cons.sizeOf_spec]
  all_goals omega

end

mutual

/-- For every visited node, its path depth `d` (root = 1) and the total
number `p` of positional arguments declared by it and its ancestors, in visit
order. -/
def visitDepthPos (cmd : CommandNode) (d p : Nat) : List (Nat × Nat) :=
  (d, p + cmd.positionals.length)
    :: visitDepthPosChildren cmd.subcommands (d + 1)
         (p + cmd.positionals.length)
termination_by sizeOf cmd
decreasing_by
  cases cmd with
  | mk n p' h hd s =>
      simp only [CommandNode.subcommands, CommandNode.mk.sizeOf_spec]
      omega

/-- `visitDepthPos` over a subcommand list, skipping children named
"readme". -/
def visitDepthPosChildren : List CommandNode → Nat → Nat → List (Nat × Nat)
  | [], _, _ => []
  | c :: cs, d, p =>
      (if c.name = str "readme" then [] else visitDepthPos c d p)
        ++ visitDepthPosChildren cs d p
termination_by cs _ _ => sizeOf cs
decreasing_by
  all_goals simp only [List.cons.sizeOf_spec]
  all_goals omega

end

mutual

/-- The tree with every "readme"-named child (and its whole subtree) removed:
the subtree of the command tree that the renderer actually documents. -/
def pruneReadme : CommandNode → CommandNode
  | .mk n p h hd s => .mk n p h hd (pruneReadmeList s)
termination_by t => sizeOf t

/-- `pruneReadme` over a subcommand list. -/
def pruneReadmeList : List CommandNode → List CommandNode
  | [] => []
  | c :: cs =>
      (if c.name = str "readme" then [] else [pruneReadme c])
        ++ pruneReadmeList cs
termination_by cs => sizeOf cs

end

mutual

/-- All nodes of a tree in pre-order (no skipping). -/
def allNodes (cmd : CommandNode) : List CommandNode :=
  cmd :: allNodesList cmd.subcommands
termination_by sizeOf cmd
decreasing_by
  cases cmd with
  | mk n p h hd s =>
      simp only [CommandNode.subcommands, CommandNode.mk.sizeOf_spec]
      omega

/-- `allNodes` over a list of trees. -/
def allNodesList : List CommandNode → List CommandNode
  | [] => []
  | c :: cs => allNodes c ++ allNodesList cs
termination_by cs => sizeOf cs
decreasing_by
  all_goals simp only [List.cons.sizeOf_spec]
  all_goals omega

end

/-- Number of `#` markers a section's heading starts with. -/
def headingCount (s : Str) : Nat := (s.takeWhile (fun c => c = '#')).length

/-- The display name of a section: what stands between the heading markers
plus one space and the end of the heading line. -/
def nameLine (s : Str) : Str :=
  ((s.dropWhile (fun c => c = '#')).drop 1).takeWhile (fun c => c ≠ '\n')

/-- Structural induction for `CommandNode` through its nested subcommand
list. -/
theorem CommandNode.ind (P : CommandNode → Prop)
    (h : ∀ n p hl hd subs, (∀ c ∈ subs, P c) → P (.mk n p hl hd subs)) :
    ∀ t, P t := fun t =>
  match t with
  | .mk n p hl hd subs => h n p hl hd subs (fun c hc => CommandNode.ind P h c)
termination_by t => sizeOf t
decreasing_by
  have hlt := List.sizeOf_lt_of_mem hc
  simp only [CommandNode.mk.sizeOf_spec]
  omega

/-! ### Plumbing lemmas about the traversal -/

theorem CommandNode.name_mapHide (f : Bool → Bool) (t : CommandNode) :
    (t.mapHide f).name = t.name := by
  cases t with
  | mk n p h hd s => simp [CommandNode.mapHide, CommandNode.name]

theorem CommandNode.positionals_mapHide (f : Bool → Bool) (t : CommandNode) :
    (t.mapHide f).positionals = t.positionals := by
  cases t with
  | mk n p h hd s => simp [CommandNode.mapHide, CommandNode.positionals]

theorem CommandNode.help_mapHide (f : Bool → Bool) (t : CommandNode) :
    (t.mapHide f).help = t.help := by
  cases t with
  | mk n p h hd s => simp [CommandNode.mapHide, CommandNode.help]

theorem CommandNode.subcommands_mapHide (f : Bool → Bool) (t : CommandNode) :
    (t.mapHide f).subcommands = mapHideList f t.subcommands := by
  cases t with
  | mk n p h hd s => simp [CommandNode.mapHide, CommandNode.subcommands]

theorem nameAndPos_mapHide (f : Bool → Bool) (t : CommandNode) :
    nameAndPos (t.mapHide f) = nameAndPos t := by
  simp [nameAndPos, CommandNode.name_mapHide, CommandNode.positionals_mapHide]

theorem CommandNode.name_withSubs (t : CommandNode) (l : List CommandNode) :
    (t.withSubs l).name = t.name := by
  cases t with
  | mk n p h hd s => rfl

theorem CommandNode.positionals_withSubs (t : CommandNode)
    (l : List CommandNode) : (t.withSubs l).positionals = t.positionals := by
  cases t with
  | mk n p h hd s => rfl

theorem CommandNode.help_withSubs (t : CommandNode) (l : List CommandNode) :
    (t.withSubs l).help = t.help := by
  cases t with
  | mk n p h hd s => rfl

theorem CommandNode.subcommands_withSubs (t : CommandNode)
    (l : List CommandNode) : (t.withSubs l).subcommands = l := by
  cases t with
  | mk n p h hd s => rfl

theorem nameAndPos_withSubs (t : CommandNode) (l : List CommandNode) :
    nameAndPos (t.withSubs l) = nameAndPos t := by
  simp [nameAndPos, CommandNode.name_withSubs, CommandNode.positionals_withSubs]

theorem sectionFor_withSubs (ns : List Str) (t : CommandNode)
    (l : List CommandNode) : sectionFor ns (t.withSubs l) = sectionFor ns t := by
  simp [sectionFor, nameAndPos_withSubs, CommandNode.help_withSubs]

theorem sectionFor_mapHide (ns : List Str) (f : Bool → Bool) (t : CommandNode) :
    sectionFor ns (t.mapHide f) = sectionFor ns t := by
  simp [sectionFor, nameAndPos_mapHide, CommandNode.help_mapHide]

/-- `build_readme` is its head section followed by the children loop. -/
theorem build_readme_unfold (t : CommandNode) (ns : List Str) :
    build_readme t ns
      = sectionFor ns t
          ++ build_readme_children t.subcommands (ns ++ nameAndPos t) := by
  rw [build_readme, sectionFor]

theorem build_readme_children_append (l₁ l₂ : List CommandNode)
    (ns : List Str) :
    build_readme_children (l₁ ++ l₂) ns
      = build_readme_children l₁ ns ++ build_readme_children l₂ ns := by
  induction l₁ with
  | nil => simp [build_readme_children]
  | cons c cs ih => simp [build_readme_children, ih]

theorem build_readme_children_eq_sections (l : List CommandNode)
    (ih : ∀ c ∈ l, ∀ ns, build_readme c ns = (sectionsOf c ns).flatten) :
    ∀ ns, build_readme_children l ns = (sectionsOfChildren l ns).flatten := by
  induction l with
  | nil => intro ns; simp [build_readme_children, sectionsOfChildren]
  | cons c cs ihl =>
      intro ns
      rw [build_readme_children, sectionsOfChildren, List.flatten_append,
        ihl (fun c hc => ih c (List.mem_cons_of_mem _ hc))]
      by_cases hc : c.name = str "readme"
      · simp [hc]
      · simp only [if_neg hc]
        rw [ih c (List.mem_cons_self c cs) ns]

/-- `build_readme` emits exactly the concatenation of the per-node sections. -/
theorem build_readme_eq_sections (t : CommandNode) :
    ∀ ns, build_readme t ns = (sectionsOf t ns).flatten := by
  induction t using CommandNode.ind with
  | _ n p hl hd subs ih =>
      intro ns
      rw [build_readme_unfold, sectionsOf, List.flatten_cons]
      simp only [CommandNode.subcommands]
      rw [build_readme_children_eq_sections _ ih]

theorem sectionsOfChildren_eq_chains (l : List CommandNode)
    (ih : ∀ c ∈ l, ∀ ns, sectionsOf c ns
      = (nodeChains c).map (fun x => sectionFor (ns ++ x.1.flatMap nameAndPos) x.2)) :
    ∀ ns, sectionsOfChildren l ns
      = (nodeChainsChildren l).map
          (fun x => sectionFor (ns ++ x.1.flatMap nameAndPos) x.2) := by
  induction l with
  | nil => intro ns; simp [sectionsOfChildren, nodeChainsChildren]
  | cons c cs ihl =>
      intro ns
      rw [sectionsOfChildren, nodeChainsChildren, List.map_append,
        ihl (fun c hc => ih c (List.mem_cons_of_mem _ hc))]
      by_cases hc : c.name = str "readme"
      · simp [hc]
      · simp only [if_neg hc]
        rw [ih c (List.mem_cons_self c cs) ns]

/-- Each emitted section is rendered from the chain of the node's ancestors:
the display context is the concatenation, over the root-to-parent chain, of
each ancestor's name followed by that ancestor's own positional fragments. -/
theorem sectionsOf_eq_chains (t : CommandNode) :
    ∀ ns, sectionsOf t ns
      = (nodeChains t).map
          (fun x => sectionFor (ns ++ x.1.flatMap nameAndPos) x.2) := by
  induction t using CommandNode.ind with
  | _ n p hl hd subs ih =>
      intro ns
      rw [sectionsOf, nodeChains]
      simp only [CommandNode.subcommands, List.map_cons, List.map_map,
        List.flatMap_nil, List.append_nil]
      congr 1
      rw [sectionsOfChildren_eq_chains _ ih]
      apply List.map_congr_left
      intro x _
      simp [Function.comp, List.append_assoc]

theorem takeWhile_replicate_hash (k : Nat) (rest : Str) :
    (List.replicate k '#' ++ ' ' :: rest).takeWhile (fun c => c = '#')
      = List.replicate k '#' := by
  induction k with
  | zero => simp [List.takeWhile]
  | succ m ih => simpa [List.replicate, List.takeWhile] using ih

/-- The heading of a single section has `min (|names| + 1 + #positionals) 6`
markers. -/
theorem headingCount_sectionFor (ns : List Str) (t : CommandNode) :
    headingCount (sectionFor ns t)
      = min (ns.length + 1 + t.positionals.length) 6 := by
  have hlen : (ns ++ nameAndPos t).length = ns.length + 1 + t.positionals.length := by
    simp [nameAndPos]
    omega
  rw [sectionFor, headingCount]
  simp only [List.append_assoc]
  rw [show str " " ++ (List.intercalate (str " ") (ns ++ nameAndPos t)
      ++ (str "\n\n```\n" ++ (t.help ++ str "\n```\n")))
    = ' ' :: (List.intercalate (str " ") (ns ++ nameAndPos t)
      ++ (str "\n\n```\n" ++ (t.help ++ str "\n```\n"))) from rfl]
  rw [takeWhile_replicate_hash, List.length_replicate, hlen]

theorem sectionsOfChildren_headings (l : List CommandNode)
    (ih : ∀ c ∈ l, ∀ ns d p, ns.length + 1 = d + p →
      (sectionsOf c ns).map headingCount
        = (visitDepthPos c d p).map (fun q => min (q.1 + q.2) 6)) :
    ∀ ns d p, ns.length + 1 = d + p →
      (sectionsOfChildren l ns).map headingCount
        = (visitDepthPosChildren l d p).map (fun q => min (q.1 + q.2) 6) := by
  induction l with
  | nil => intro ns d p _; simp [sectionsOfChildren, visitDepthPosChildren]
  | cons c cs ihl =>
      intro ns d p hdp
      rw [sectionsOfChildren, visitDepthPosChildren, List.map_append,
        List.map_append, ihl (fun c hc => ih c (List.mem_cons_of_mem _ hc)) ns d p hdp]
      by_cases hc : c.name = str "readme"
      · simp [hc]
      · simp only [if_neg hc]
        rw [ih c (List.mem_cons_self c cs) ns d p hdp]

/-- Generalized heading-depth invariant: if the accumulated context `ns`
satisfies `|ns| + 1 = d + p`, the emitted headings are `min (d + p) 6` over
the visit-order depth/positional metadata. -/
theorem sectionsOf_headings (t : CommandNode) :
    ∀ ns d p, ns.length + 1 = d + p →
      (sectionsOf t ns).map headingCount
        = (visitDepthPos t d p).map (fun q => min (q.1 + q.2) 6) := by
  induction t using CommandNode.ind with
  | _ n p hl hd subs ih =>
      intro ns d q hdq
      rw [sectionsOf, visitDepthPos]
      simp only [List.map_cons, CommandNode.subcommands]
      congr 1
      · rw [headingCount_sectionFor]
        simp only [CommandNode.positionals]
        omega
      · apply sectionsOfChildren_headings _ ih
        simp only [nameAndPos, CommandNode.name, CommandNode.positionals,
          List.length_append, List.length_cons, List.length_map]
        omega

theorem build_readme_children_mapHide (f : Bool → Bool) (l : List CommandNode)
    (ih : ∀ c ∈ l, ∀ ns, build_readme (c.mapHide f) ns = build_readme c ns) :
    ∀ ns, build_readme_children (mapHideList f l) ns
      = build_readme_children l ns := by
  induction l with
  | nil => intro ns; simp [mapHideList]
  | cons c cs ihl =>
      intro ns
      rw [mapHideList, build_readme_children, build_readme_children,
        CommandNode.name_mapHide,
        ihl (fun c hc => ih c (List.mem_cons_of_mem _ hc))]
      by_cases hc : c.name = str "readme"
      · simp [hc]
      · simp only [if_neg hc]
        rw [ih c (List.mem_cons_self c cs) ns]

/-- The renderer's output does not depend on any node's `hide` attribute. -/
theorem build_readme_mapHide (f : Bool → Bool) (t : CommandNode) :
    ∀ ns, build_readme (t.mapHide f) ns = build_readme t ns := by
  induction t using CommandNode.ind with
  | _ n p hl hd subs ih =>
      intro ns
      rw [build_readme_unfold, build_readme_unfold, sectionFor_mapHide,
        nameAndPos_mapHide, CommandNode.subcommands_mapHide]
      simp only [CommandNode.subcommands]
      rw [build_readme_children_mapHide f _ ih]

theorem visitedNodesChildren_mapHide (f : Bool → Bool) (l : List CommandNode)
    (ih : ∀ c ∈ l, visitedNodes (c.mapHide f)
      = (visitedNodes c).map (CommandNode.mapHide f)) :
    visitedNodesChildren (mapHideList f l)
      = (visitedNodesChildren l).map (CommandNode.mapHide f) := by
  induction l with
  | nil => simp [mapHideList, visitedNodesChildren]
  | cons c cs ihl =>
      rw [mapHideList, visitedNodesChildren, visitedNodesChildren,
        CommandNode.name_mapHide, List.map_append,
        ihl (fun c hc => ih c (List.mem_cons_of_mem _ hc))]
      by_cases hc : c.name = str "readme"
      · simp [hc]
      · simp only [if_neg hc]
        rw [ih c (List.mem_cons_self c cs)]

/-- The set of visited nodes does not depend on any node's `hide` attribute:
flipping `hide` flags yields the same visit order, node for node. -/
theorem visitedNodes_mapHide (f : Bool → Bool) (t : CommandNode) :
    visitedNodes (t.mapHide f) = (visitedNodes t).map (CommandNode.mapHide f) := by
  induction t using CommandNode.ind with
  | _ n p hl hd subs ih =>
      rw [visitedNodes, visitedNodes, List.map_cons,
        CommandNode.subcommands_mapHide]
      simp only [CommandNode.subcommands]
      rw [visitedNodesChildren_mapHide f _ ih]

theorem visitedNodesChildren_names (l : List CommandNode)
    (ih : ∀ c ∈ l, (visitedNodes c).map CommandNode.name
      = (allNodes (pruneReadme c)).map CommandNode.name) :
    (visitedNodesChildren l).map CommandNode.name
      = (allNodesList (pruneReadmeList l)).map CommandNode.name := by
  induction l with
  | nil => simp [visitedNodesChildren, pruneReadmeList, allNodesList]
  | cons c cs ihl =>
      rw [visitedNodesChildren, pruneReadmeList, List.map_append]
      by_cases hc : c.name = str "readme"
      · simp only [if_pos hc, List.nil_append, List.map_nil]
        rw [ihl (fun c hc => ih c (List.mem_cons_of_mem _ hc))]
      · simp only [if_neg hc, List.singleton_append]
        rw [allNodesList, List.map_append,
          ihl (fun c hc => ih c (List.mem_cons_of_mem _ hc)),
          ih c (List.mem_cons_self c cs)]

/-- Node for node (by name), the visited nodes are exactly all nodes of the
tree from which every "readme"-named child has been pruned. -/
theorem visitedNodes_names (t : CommandNode) :
    (visitedNodes t).map CommandNode.name
      = (allNodes (pruneReadme t)).map CommandNode.name := by
  induction t using CommandNode.ind with
  | _ n p hl hd subs ih =>
      rw [visitedNodes, pruneReadme, allNodes, List.map_cons, List.map_cons]
      simp only [CommandNode.subcommands, CommandNode.name]
      rw [visitedNodesChildren_names _ ih]

/-- Dropping a "readme"-named element from the subcommand list leaves the
children loop's output unchanged. -/
theorem build_readme_children_erase (ns : List Str) (c : CommandNode)
    (hc : c.name = str "readme") :
    ∀ pre rest, build_readme_children (pre ++ c :: rest) ns
      = build_readme_children (pre ++ rest) ns := by
  intro pre rest
  induction pre with
  | nil => simp [build_readme_children, hc]
  | cons d ds ih => simp [build_readme_children, ih]

/-- A "readme"-named child can be deleted from a node without changing the
rendered output at all. -/
theorem build_readme_erase_readme_child (t : CommandNode) (ns : List Str)
    (c : CommandNode) (hc : c.name = str "readme")
    (pre rest : List CommandNode) (hsubs : t.subcommands = pre ++ c :: rest) :
    build_readme t ns = build_readme (t.withSubs (pre ++ rest)) ns := by
  rw [build_readme_unfold, build_readme_unfold, sectionFor_withSubs,
    nameAndPos_withSubs, CommandNode.subcommands_withSubs, hsubs,
    build_readme_children_erase (ns ++ nameAndPos t) c hc]

/-- A child whose name is not "readme" contributes its own recursive render
as a contiguous part of its parent's output. -/
theorem build_readme_keeps_other_child (t : CommandNode) (ns : List Str)
    (c : CommandNode) (hc : c.name ≠ str "readme")
    (pre rest : List CommandNode) (hsubs : t.subcommands = pre ++ c :: rest) :
    ∃ x y, build_readme t ns
      = x ++ build_readme c (ns ++ nameAndPos t) ++ y := by
  refine ⟨sectionFor ns t ++ build_readme_children pre (ns ++ nameAndPos t),
    build_readme_children rest (ns ++ nameAndPos t), ?_⟩
  rw [build_readme_unfold, hsubs, build_readme_children_append,
    build_readme_children, if_neg hc]
  simp [List.append_assoc]

/-! ### Post-processing passes of the `SubCommands::Readme` arm of `main` -/

/-- Rust `str::trim_end`: drop all trailing whitespace from a line. -/
def trimEnd (l : Str) : Str := (l.reverse.dropWhile Char.isWhitespace).reverse

/-- The dropping of one carriage return before a line feed that Rust's
`str::lines` performs at each split point. -/
def stripCR (l : Str) : Str := if l.getLast? = some '\r' then l.dropLast else l

/-- Worker for `splitLines`: accumulate the current line up to a newline; a
final newline terminates the last line rather than opening an empty one. -/
def splitLinesGo (acc : Str) : Str → List Str
  | [] => [acc]
  | c :: r =>
      if c = '\n' then
        if r = [] then [stripCR acc] else stripCR acc :: splitLinesGo [] r
      else splitLinesGo (acc ++ [c]) r

/-- Rust `str::lines`: split at `\n` (dropping a preceding `\r`), with an
optional final line terminator and no lines at all for the empty string. -/
def splitLines (s : Str) : List Str := if s = [] then [] else splitLinesGo [] s

/-- Rust `str::replace` for a non-empty pattern: replace every
non-overlapping occurrence of `pat` by `rep`, scanning left to right (the
source only ever calls it with non-empty literal patterns). -/
def replaceAll (pat rep : Str) : Str → Str
  | [] => []
  | c :: s =>
      if pat ≠ [] ∧ pat.isPrefixOf (c :: s) then
        rep ++ replaceAll pat rep ((c :: s).drop pat.length)
      else c :: replaceAll pat rep s
termination_by s => s.length
decreasing_by
  · rename_i h
    have hp : 0 < pat.length := List.length_pos.mpr h.1
    simp only [List.length_drop, List.length_cons]
    omega
  · simp

/-- Rust `str::replacen(pat, rep, 1)` for a non-empty pattern: replace only
the first occurrence of `pat`, scanning left to right. -/
def replaceFirst (pat rep : Str) : Str → Str
  | [] => []
  | c :: s =>
      if pat ≠ [] ∧ pat.isPrefixOf (c :: s) then
        rep ++ (c :: s).drop pat.length
      else c :: replaceFirst pat rep s

/-- Modelled from the spec: the one-line project description inserted under
the rewritten root heading (`env!("CARGO_PKG_DESCRIPTION")`; the package
manifest is not under `src/`). Its concrete value plays no role in any
claim. -/
def cargoPkgDescription : Str := str "A CLI for interacting with Azure Storage"

/-- The final post-processing pass (source lines 151–155): split into lines,
strip trailing whitespace from each, re-join with `\n`, then replace every
non-overlapping occurrence of `\n\n\n` by `\n`. -/
def stripAndCollapse (s : Str) : Str :=
  replaceAll (str "\n\n\n") (str "\n")
    (List.intercalate (str "\n") ((splitLines s).map trimEnd))

/-- The whole readme post-processing chain of the `SubCommands::Readme` arm
of `main` (source lines 142–156): render the tree, rename the binary to its
alias `azs`, rewrite the first root-heading occurrence into the rich title
plus description, then strip/collapse whitespace. -/
def readmeOutput (cmd : CommandNode) : Str :=
  stripAndCollapse
    (replaceFirst (str "# azs")
      (str "# Azure Storage CLI\n\n" ++ cargoPkgDescription)
      (replaceAll (str "azs.exe") (str "azs")
        (replaceAll (str "azure-storage-cli") (str "azs")
          (build_readme cmd []))))

/-! ### Credential resolution and dispatch (`main`, lines 126–185) -/

/-- `StorageCredentials` as constructed by `main` (lines 135–138): the
key-based variant from `StorageCredentials::access_key(&account, access_key)`
or the identity-based variant from
`StorageCredentials::token_credential(Arc::new(DefaultAzureCredential))`. -/
inductive StorageCredentials where
  | accessKey (account : String) (key : String)
  | tokenCredential
deriving DecidableEq

/-- The credential-resolution `match` of `main` (lines 135–138): a pure
function of the presence of the optional access key. -/
def resolveCredential (account : String) (access_key : Option String) :
    StorageCredentials :=
  match access_key with
  | some access_key => .accessKey account access_key
  | none => .tokenCredential

/-- Modelled from the spec: the captured arguments of a family's subcommand
(the per-family subcommand enums live in modules that are not under
`src/`). -/
structure FamilyArgs where
  raw : List String
deriving DecidableEq

/-- `SubCommands` from `src/main.rs` (lines 58–91), each family's subcommand
payload abstracted to its captured arguments; the `Readme` variant carries
`#[command(hide = true)]` in the source. -/
inductive SubCommands where
  | account (subcommand : FamilyArgs)
  | container (subcommand : FamilyArgs) (container_name : String)
  | queues (subcommand : FamilyArgs)
  | datalake (subcommand : FamilyArgs)
  | tables (subcommand : FamilyArgs)
  | readme
deriving DecidableEq

/-- `Args` from `src/main.rs` (lines 36–56). -/
structure Args where
  account : String
  subcommand : SubCommands
  access_key : Option String
deriving DecidableEq

/-- A remote service client, tagged by family, as constructed by the dispatch
arms of `main` (`BlobServiceClient::new`, `QueueServiceClient::new`,
`DataLakeClient::new`, `TableServiceClient::new`). -/
inductive ServiceClient where
  | blobService (account : String) (credential : StorageCredentials)
  | queueService (account : String) (credential : StorageCredentials)
  | dataLake (account : String) (credential : StorageCredentials)
  | tableService (account : String) (credential : StorageCredentials)
deriving DecidableEq

/-- The client an operation call is forwarded to: the service client itself
or, for the container family only, the container-scoped narrowing obtained
via `service_client.container_client(container_name)`. -/
inductive OpTarget where
  | service (client : ServiceClient)
  | container (client : ServiceClient) (container_name : String)
deriving DecidableEq

/-- The observable trace of one process run: the resolved credential (always
computed, lines 135–138), the remote service clients constructed, the
external operation calls forwarded (target plus captured arguments), what was
printed, and the process outcome (`Ok(())` exits 0, an error a non-zero
exit). -/
structure MainTrace where
  storage_credentials : StorageCredentials
  serviceClients : List ServiceClient
  opCalls : List (OpTarget × FamilyArgs)
  printed : Option Str
  result : Except String Unit

/-- `main` (lines 126–185) with its external collaborators as parameters:
`tree` is the command tree `Args::command()` that the parsing library derives
from the declarations, and `ops` — modelled from the spec (§4.3, §7: the
per-family command modules are not under `src/`) — forwards the captured
arguments to one external operation call on the given client and returns its
outcome, which `main` propagates unchanged via `?`. -/
def runMain (tree : CommandNode)
    (ops : OpTarget → FamilyArgs → Except String Unit) (args : Args) :
    MainTrace :=
  let storage_credentials := resolveCredential args.account args.access_key
  match args.subcommand with
  | .readme =>
      { storage_credentials
        serviceClients := []
        opCalls := []
        printed := some (readmeOutput tree)
        result := .ok () }
  | .account subcommand =>
      let service_client :=
        ServiceClient.blobService args.account storage_credentials
      { storage_credentials
        serviceClients := [service_client]
        opCalls := [(.service service_client, subcommand)]
        printed := none
        result := ops (.service service_client) subcommand }
  | .container subcommand container_name =>
      let service_client :=
        ServiceClient.blobService args.account storage_credentials
      let container_client := OpTarget.container service_client container_name
      { storage_credentials
        serviceClients := [service_client]
        opCalls := [(container_client, subcommand)]
        printed := none
        result := ops container_client subcommand }
  | .queues subcommand =>
      let service_client :=
        ServiceClient.queueService args.account storage_credentials
      { storage_credentials
        serviceClients := [service_client]
        opCalls := [(.service service_client, subcommand)]
        printed := none
        result := ops (.service service_client) subcommand }
  | .datalake subcommand =>
      let service_client :=
        ServiceClient.dataLake args.account storage_credentials
      { storage_credentials
        serviceClients := [service_client]
        opCalls := [(.service service_client, subcommand)]
        printed := none
        result := ops (.service service_client) subcommand }
  | .tables subcommand =>
      let table_client :=
        ServiceClient.tableService args.account storage_credentials
      { storage_credentials
        serviceClients := [table_client]
        opCalls := [(.service table_client, subcommand)]
        printed := none
        result := ops (.service table_client) subcommand }

/-! ### Lemmas about the post-processing passes -/

theorem isPrefixOf_append_self (p s : Str) : p.isPrefixOf (p ++ s) = true := by
  induction p with
  | nil => simp [List.isPrefixOf]
  | cons c cs ih => simp [List.isPrefixOf, ih]

/-- `replaceAll` walks past a stretch that contains no occurrence of the
pattern's first character. -/
theorem replaceAll_skip (p0 : Char) (pt rep : Str) :
    ∀ a s : Str, (∀ c ∈ a, c ≠ p0) →
      replaceAll (p0 :: pt) rep (a ++ s) = a ++ replaceAll (p0 :: pt) rep s := by
  intro a
  induction a with
  | nil => intro s _; simp
  | cons c a' ih =>
      intro s ha
      have hc : c ≠ p0 := ha c (List.mem_cons_self c a')
      rw [List.cons_append, replaceAll]
      have hguard : ¬((p0 :: pt) ≠ [] ∧ (p0 :: pt).isPrefixOf (c :: (a' ++ s))) := by
        simp [List.isPrefixOf, Ne.symm hc]
      rw [if_neg hguard, ih s (fun d hd => ha d (List.mem_cons_of_mem _ hd))]
      simp

theorem replaceAll_no_match (p0 : Char) (pt rep : Str) (b : Str)
    (hb : ∀ c ∈ b, c ≠ p0) : replaceAll (p0 :: pt) rep b = b := by
  have h := replaceAll_skip p0 pt rep b [] hb
  simpa [replaceAll] using h

/-- `replaceAll` consumes a match at the head and continues after it. -/
theorem replaceAll_head_match (p0 : Char) (pt rep s : Str) :
    replaceAll (p0 :: pt) rep ((p0 :: pt) ++ s)
      = rep ++ replaceAll (p0 :: pt) rep s := by
  rw [List.cons_append, replaceAll]
  have hguard : ((p0 :: pt) ≠ [] ∧ (p0 :: pt).isPrefixOf (p0 :: (pt ++ s))) := by
    refine ⟨by simp, ?_⟩
    have := isPrefixOf_append_self (p0 :: pt) s
    simpa using this
  rw [if_pos hguard]
  congr 1
  have hdrop : (p0 :: (pt ++ s)).drop (p0 :: pt).length = s := by
    have := List.drop_left (p0 :: pt) s
    simpa using this
  rw [hdrop]

theorem splitLinesGo_newline (a : Str) :
    ∀ (acc r : Str), '\n' ∉ a → r ≠ [] →
      splitLinesGo acc (a ++ '\n' :: r) = stripCR (acc ++ a) :: splitLinesGo [] r := by
  induction a with
  | nil =>
      intro acc r _ hr
      rw [List.nil_append, splitLinesGo, if_pos rfl, if_neg hr, List.append_nil]
  | cons c a' ih =>
      intro acc r ha hr
      have hc : c ≠ '\n' := fun h => ha (h ▸ List.mem_cons_self c a')
      rw [List.cons_append, splitLinesGo, if_neg hc,
        ih (acc ++ [c]) r (fun h => ha (List.mem_cons_of_mem _ h)) hr]
      simp [List.append_assoc]

theorem splitLinesGo_last (b : Str) :
    ∀ acc : Str, '\n' ∉ b → splitLinesGo acc b = [acc ++ b] := by
  induction b with
  | nil => intro acc _; simp [splitLinesGo]
  | cons c b' ih =>
      intro acc hb
      have hc : c ≠ '\n' := fun h => hb (h ▸ List.mem_cons_self c b')
      rw [splitLinesGo, if_neg hc, ih (acc ++ [c]) (fun h => hb (List.mem_cons_of_mem _ h))]
      simp [List.append_assoc]

/-- A line with no trailing whitespace does not end in a carriage return. -/
theorem stripCR_of_trimEnd_fixed (a : Str) (ha : a ≠ []) (hta : trimEnd a = a) :
    stripCR a = a := by
  rw [stripCR]
  have hrev : a.reverse ≠ [] := by simpa using ha
  obtain ⟨c, t, hct⟩ := List.exists_cons_of_ne_nil hrev
  have hdrop : a.reverse.dropWhile Char.isWhitespace = a.reverse := by
    have := congrArg List.reverse hta
    rw [trimEnd, List.reverse_reverse] at this
    exact this
  have hcw : Char.isWhitespace c = false := by
    by_contra hcw
    have hcw' : Char.isWhitespace c = true := by
      cases hx : Char.isWhitespace c with
      | false => exact absurd hx hcw
      | true => rfl
    rw [hct, List.dropWhile_cons, hcw'] at hdrop
    have hlen := congrArg List.length hdrop
    have hle := (List.dropWhile_sublist (l := t) Char.isWhitespace).length_le
    simp at hlen
    omega
  have hlast : a.getLast? = some c := by
    rw [← List.head?_reverse, hct]
    rfl
  rw [hlast]
  have : c ≠ '\r' := by
    intro hcr
    rw [hcr] at hcw
    simp [Char.isWhitespace] at hcw
  simp [this]

/-- What the final pass really does to two consecutive blank lines separating
two pre-trimmed, newline-free, non-empty stretches: the three newlines become
one, i.e. the blank lines are removed outright rather than collapsed to a
single blank line. -/
theorem stripAndCollapse_double_blank (a b : Str) (hna : '\n' ∉ a)
    (hnb : '\n' ∉ b) (ha : a ≠ []) (hb : b ≠ []) (hta : trimEnd a = a)
    (htb : trimEnd b = b) :
    stripAndCollapse (a ++ str "\n\n\n" ++ b) = a ++ str "\n" ++ b := by
  have hsplit : splitLines (a ++ str "\n\n\n" ++ b) = [a, [], [], b] := by
    have hshape : a ++ str "\n\n\n" ++ b = a ++ '\n' :: ('\n' :: ('\n' :: b)) := by
      simp [str, List.append_assoc]
    rw [hshape, splitLines]
    have hne : a ++ '\n' :: ('\n' :: ('\n' :: b)) ≠ [] := by
      cases a with
      | nil => exact absurd rfl ha
      | cons c t => simp
    rw [if_neg hne, splitLinesGo_newline a [] _ hna (by simp)]
    have h2 : splitLinesGo [] ('\n' :: ('\n' :: b)) = stripCR [] :: splitLinesGo [] ('\n' :: b) := by
      have := splitLinesGo_newline [] [] ('\n' :: b) (by simp) (by simp)
      simpa using this
    have h3 : splitLinesGo [] ('\n' :: b) = stripCR [] :: splitLinesGo [] b := by
      have := splitLinesGo_newline [] [] b (by simp) hb
      simpa using this
    rw [h2, h3, splitLinesGo_last b [] hnb]
    simp only [List.nil_append]
    rw [stripCR_of_trimEnd_fixed a ha hta]
    simp [stripCR]
  rw [stripAndCollapse, hsplit]
  have hmap : [a, [], [], b].map trimEnd = [a, [], [], b] := by
    simp only [List.map_cons, List.map_nil]
    rw [hta, htb]
    rfl
  rw [hmap]
  have hinter : List.intercalate (str "\n") [a, [], [], b]
      = a ++ ('\n' :: '\n' :: '\n' :: b) := by
    simp [str, List.intercalate, List.intersperse]
  rw [hinter]
  have hmema : ∀ c ∈ a, c ≠ '\n' := fun c hc h => hna (h ▸ hc)
  have hmemb : ∀ c ∈ b, c ≠ '\n' := fun c hc h => hnb (h ▸ hc)
  have hpat : str "\n\n\n" = '\n' :: ('\n' :: ('\n' :: [])) := rfl
  rw [hpat, replaceAll_skip '\n' _ _ a _ hmema]
  have hmatch : ('\n' :: '\n' :: '\n' :: b)
      = ('\n' :: ('\n' :: ('\n' :: []))) ++ b := by simp
  rw [hmatch, replaceAll_head_match, replaceAll_no_match _ _ _ b hmemb]
  simp [str]

theorem sectionsOfChildren_length (l : List CommandNode)
    (ih : ∀ c ∈ l, ∀ ns,
      (sectionsOf c ns).length = (visitedNodes c).length) :
    ∀ ns, (sectionsOfChildren l ns).length
      = (visitedNodesChildren l).length := by
  induction l with
  | nil => intro ns; simp [sectionsOfChildren, visitedNodesChildren]
  | cons c cs ihl =>
      intro ns
      rw [sectionsOfChildren, visitedNodesChildren, List.length_append,
        List.length_append, ihl (fun c hc => ih c (List.mem_cons_of_mem _ hc))]
      by_cases hc : c.name = str "readme"
      · simp [hc]
      · simp only [if_neg hc]
        rw [ih c (List.mem_cons_self c cs) ns]

/-- The renderer emits exactly one section per visited node. -/
theorem sectionsOf_length (t : CommandNode) :
    ∀ ns, (sectionsOf t ns).length = (visitedNodes t).length := by
  induction t using CommandNode.ind with
  | _ n p hl hd subs ih =>
      intro ns
      rw [sectionsOf, visitedNodes, List.length_cons, List.length_cons]
      simp only [CommandNode.subcommands]
      rw [sectionsOfChildren_length _ ih]

/-! ### Concrete trees used by counterexamples and witnesses -/

/-- A two-node tree mirroring the program's own `container` family: the root
has no positionals, its child declares one positional (`container_name`). -/
def exC2 : CommandNode :=
  .mk (str "azure-storage-cli") [] (str "root help") false
    [.mk (str "container") [str "container_name"] (str "container help") false []]

/-- A root with a single child that is marked hidden but is not named
"readme". -/
def exC5 : CommandNode :=
  .mk (str "r") [] (str "h") false [.mk (str "sub") [] (str "h") true []]

/-- A three-level chain whose middle node declares one positional `x`. -/
def exC6 : CommandNode :=
  .mk (str "r") [] (str "h") false
    [.mk (str "c") [str "x"] (str "h") false
      [.mk (str "g") [] (str "h") false []]]

/-- A root whose only child is named "readme" (and hidden, as in the
program). -/
def exC10 : CommandNode :=
  .mk (str "r") [] (str "h") false [.mk (str "readme") [] (str "h") true []]

/-! ### Claims -/

/-- C1: credential resolution is a pure function of the presence of the
secret: a present access key yields the key-based variant bound to the given
account and secret, an absent one yields the identity-based variant, and the
two cases are mutually exclusive and exhaustive. -/
theorem c1_resolve_credential :
    (∀ account key : String,
        resolveCredential account (some key)
          = StorageCredentials.accessKey account key)
  ∧ (∀ account : String,
        resolveCredential account none = StorageCredentials.tokenCredential)
  ∧ (∀ account key : String,
        resolveCredential account (some key)
            ≠ StorageCredentials.tokenCredential
          ∧ ∀ a k, resolveCredential account none
              ≠ StorageCredentials.accessKey a k)
  ∧ (∀ (account : String) (o : Option String),
        (∃ key, o = some key
            ∧ resolveCredential account o
                = StorageCredentials.accessKey account key)
          ∨ (o = none
            ∧ resolveCredential account o
                = StorageCredentials.tokenCredential)) := by
  refine ⟨fun a k => rfl, fun a => rfl,
    fun a k => ⟨by simp [resolveCredential], fun a' k' => by simp [resolveCredential]⟩, ?_⟩
  intro a o
  cases o with
  | some key => exact .inl ⟨key, rfl, rfl⟩
  | none => exact .inr ⟨rfl, rfl⟩

/-- C2 counterexample: in the two-node tree `exC2` the child sits at path
depth 2 and the claim predicts `min 2 6 = 2` heading markers, but the
rendered section for it carries 3 markers, because the child's positional is
also counted. -/
theorem c2_counterexample :
    (sectionsOf exC2 []).map headingCount = [1, 3] ∧ (3 : Nat) ≠ min 2 6 := by
  have hne : CommandNode.name
      (.mk (str "container") [str "container_name"] (str "container help")
        false []) ≠ str "readme" := by decide
  constructor
  · simp only [sectionsOf, exC2, CommandNode.subcommands, sectionsOfChildren,
      if_neg hne, List.map_cons, List.map_nil, List.nil_append,
      List.append_nil]
    rw [headingCount_sectionFor, headingCount_sectionFor]
    decide
  · decide

/-- C2 (amended): the emitted heading of every rendered node uses exactly
`min (d + p) 6` marker characters, where `d` is the node's path depth (root
= 1) and `p` is the total number of positional arguments declared by the
node and its ancestors — the positionals pushed into the display name are
counted by the `min(names.len(), 6)` in the source, so a node's (and its
ancestors') positionals deepen the heading; for `d + p ≥ 6` the count is the
constant 6. -/
theorem c2_heading_levels (t : CommandNode) :
    build_readme t [] = (sectionsOf t []).flatten
  ∧ (sectionsOf t []).map headingCount
      = (visitDepthPos t 1 0).map (fun q => min (q.1 + q.2) 6) :=
  ⟨build_readme_eq_sections t [], sectionsOf_headings t [] 1 0 rfl⟩

/-- C3 counterexample: on the document `"x\n\n\ny"` — one run of two
consecutive blank lines — the final pass produces `"x\ny"`, deleting the
blank lines entirely, not `"x\n\ny"` (one blank line) as the claim states. -/
theorem c3_counterexample :
    stripAndCollapse (str "x\n\n\ny") = str "x\ny"
      ∧ stripAndCollapse (str "x\n\n\ny") ≠ str "x\n\ny" := by
  have heq : str "x" ++ str "\n\n\n" ++ str "y" = str "x\n\n\ny" := by decide
  have h := stripAndCollapse_double_blank (str "x") (str "y") (by decide)
    (by decide) (by decide) (by decide) (by decide) (by decide)
  rw [heq] at h
  refine ⟨by rw [h]; decide, by rw [h]; decide⟩

/-- C3 (amended): in the final pass, after trailing whitespace is stripped
from every line, each (left-to-right, non-overlapping) run of two
consecutive blank lines is deleted outright — the three newlines separating
the surrounding lines are replaced by a single newline, leaving no blank
line rather than exactly one. Stated for a run delimited by two newline-free,
already-trimmed, non-empty stretches. -/
theorem c3_collapse (a b : Str) (hna : '\n' ∉ a) (hnb : '\n' ∉ b)
    (ha : a ≠ []) (hb : b ≠ []) (hta : trimEnd a = a) (htb : trimEnd b = b) :
    stripAndCollapse (a ++ str "\n\n\n" ++ b) = a ++ str "\n" ++ b :=
  stripAndCollapse_double_blank a b hna hnb ha hb hta htb

/-- Witness for C3 at `a = "x"`, `b = "y"`. -/
theorem c3_collapse_witness :
    stripAndCollapse (str "x" ++ str "\n\n\n" ++ str "y")
      = str "x" ++ str "\n" ++ str "y" :=
  c3_collapse (str "x") (str "y") (by decide) (by decide) (by decide)
    (by decide) (by decide) (by decide)

/-- C4 counterexample: on a readme invocation with a present access key the
program does produce a resolved credential — the `match` on `access_key`
(lines 135–138) runs before the subcommand dispatch, so the key-based
credential is constructed even though the readme arm never uses it. -/
theorem c4_counterexample :
    (runMain (.mk (str "azure-storage-cli") [] [] false [])
        (fun _ _ => .ok ())
        ⟨"acct", .readme, some "sekret"⟩).storage_credentials
      = StorageCredentials.accessKey "acct" "sekret" := rfl

/-- C4 (amended): the readme leaf bypasses client construction and operation
dispatch entirely — no service client is constructed and no operation is
called; the credential, although still resolved beforehand, is unused, and
the documentation renderer's post-processed output over the full tree is
printed, with the run succeeding. -/
theorem c4_readme_bypass (tree : CommandNode)
    (ops : OpTarget → FamilyArgs → Except String Unit)
    (account : String) (key : Option String) :
    (runMain tree ops ⟨account, .readme, key⟩).serviceClients = []
  ∧ (runMain tree ops ⟨account, .readme, key⟩).opCalls = []
  ∧ (runMain tree ops ⟨account, .readme, key⟩).printed
      = some (readmeOutput tree)
  ∧ (runMain tree ops ⟨account, .readme, key⟩).result = .ok () :=
  ⟨rfl, rfl, rfl, rfl⟩

/-- C5 counterexample: in `exC5` the only child is marked hidden yet is not
named "readme", and the renderer visits it — the second visited node carries
`hide = true`, so "never visits a node marked hidden" fails. -/
theorem c5_counterexample :
    (visitedNodes exC5).map CommandNode.hide = [false, true] := by
  have hne : CommandNode.name (.mk (str "sub") [] (str "h") true [])
      ≠ str "readme" := by decide
  simp only [visitedNodes, exC5, CommandNode.subcommands, visitedNodesChildren,
    if_neg hne, List.map_cons, List.map_nil, List.nil_append, List.append_nil]
  decide

/-- C5 (amended): the renderer emits exactly one section per visited node,
and which nodes it visits is decided purely by the name "readme", never by
the hidden attribute: flipping `hide` flags arbitrarily leaves the visit
order unchanged (node for node), and the visited nodes are exactly (by name,
in pre-order, once per tree position) the nodes of the tree obtained by
pruning every "readme"-named child with its subtree. On the program's tree,
where the readme leaf is the only hidden node, this coincides with visiting
every non-hidden node exactly once. -/
theorem c5_visits :
    (∀ (t : CommandNode) (ns : List Str),
        build_readme t ns = (sectionsOf t ns).flatten
          ∧ (sectionsOf t ns).length = (visitedNodes t).length)
  ∧ (∀ (f : Bool → Bool) (t : CommandNode),
        visitedNodes (t.mapHide f)
          = (visitedNodes t).map (CommandNode.mapHide f))
  ∧ (∀ t : CommandNode,
        (visitedNodes t).map CommandNode.name
          = (allNodes (pruneReadme t)).map CommandNode.name) :=
  ⟨fun t ns => ⟨build_readme_eq_sections t ns, sectionsOf_length t ns⟩,
    fun f t => visitedNodes_mapHide f t, fun t => visitedNodes_names t⟩

/-- C6 counterexample: in `exC6` the grandchild `g` is rendered with display
name "r c <X> g" — the ancestor's positional placeholder sits in the middle
of the path — whereas the claim predicts "r c g" (path names only, the
node's own positionals appended at the end; `g` has none). -/
theorem c6_counterexample :
    nameLine ((sectionsOf exC6 []).getD 2 []) = str "r c <X> g"
      ∧ str "r c <X> g" ≠ str "r c g" := by
  have hne1 : CommandNode.name
      (.mk (str "c") [str "x"] (str "h") false
        [.mk (str "g") [] (str "h") false []]) ≠ str "readme" := by decide
  have hne2 : CommandNode.name (.mk (str "g") [] (str "h") false [])
      ≠ str "readme" := by decide
  constructor
  · simp only [sectionsOf, exC6, CommandNode.subcommands, sectionsOfChildren,
      if_neg hne1, if_neg hne2, List.nil_append, List.append_nil]
    decide
  · decide

/-- C6 (amended): every rendered section's display context is built from the
node's whole ancestor chain, each ancestor contributing its own name followed
by its own positional placeholders (upper-cased, angle-bracketed, in
declaration order) at that point of the path — so ancestors' positionals
appear interleaved along the path, not only the node's own at the end. -/
theorem c6_display_names (t : CommandNode) :
    build_readme t [] = (sectionsOf t []).flatten
  ∧ sectionsOf t []
      = (nodeChains t).map
          (fun x => sectionFor (x.1.flatMap nameAndPos) x.2) := by
  refine ⟨build_readme_eq_sections t [], ?_⟩
  have h := sectionsOf_eq_chains t []
  simpa using h

/-- C7: the rendered documentation output does not depend on the secret: for
a readme invocation, any two access-key values (present or absent) yield the
same printed output, and the output equals the renderer's secret-independent
result over the tree. -/
theorem c7_secret_noninterference (tree : CommandNode)
    (ops : OpTarget → FamilyArgs → Except String Unit) (account : String)
    (k1 k2 : Option String) :
    (runMain tree ops ⟨account, .readme, k1⟩).printed
        = (runMain tree ops ⟨account, .readme, k2⟩).printed
      ∧ (runMain tree ops ⟨account, .readme, k1⟩).printed
        = some (readmeOutput tree) :=
  ⟨rfl, rfl⟩

/-- C8: documentation rendering is deterministic — the renderer is a pure
function of the tree, so two renders of the same tree are byte-identical. -/
theorem c8_render_deterministic (t₁ t₂ : CommandNode) (names : List Str)
    (h : t₁ = t₂) : build_readme t₁ names = build_readme t₂ names := by
  rw [h]

/-- Witness for C8 at the concrete tree `exC2`. -/
theorem c8_render_deterministic_witness :
    build_readme exC2 [] = build_readme exC2 [] :=
  c8_render_deterministic exC2 exC2 [] rfl

/-- C9: for every non-readme leaf the dispatcher constructs exactly the
selected family's remote service client — bound to the invocation's account
and resolved credential — and forwards exactly the invocation's captured
arguments to exactly one external operation call on that very client (for
the container family, on its narrowing to the invocation's container name),
propagating that call's outcome unchanged as the process result (`Ok` exits
0, an error a non-zero exit) and printing nothing. Each conjunct pins the
complete trace of one family's arm, so the client, the call target, and the
forwarded payload are all determined by the invocation. -/
theorem c9_dispatch (tree : CommandNode)
    (ops : OpTarget → FamilyArgs → Except String Unit)
    (account : String) (access_key : Option String) :
    (∀ sub : FamilyArgs,
        runMain tree ops ⟨account, .account sub, access_key⟩
          = { storage_credentials := resolveCredential account access_key
              serviceClients :=
                [.blobService account (resolveCredential account access_key)]
              opCalls :=
                [(.service (.blobService account
                    (resolveCredential account access_key)), sub)]
              printed := none
              result := ops (.service (.blobService account
                (resolveCredential account access_key))) sub })
  ∧ (∀ (sub : FamilyArgs) (container_name : String),
        runMain tree ops ⟨account, .container sub container_name, access_key⟩
          = { storage_credentials := resolveCredential account access_key
              serviceClients :=
                [.blobService account (resolveCredential account access_key)]
              opCalls :=
                [(.container (.blobService account
                    (resolveCredential account access_key)) container_name,
                  sub)]
              printed := none
              result := ops (.container (.blobService account
                (resolveCredential account access_key)) container_name) sub })
  ∧ (∀ sub : FamilyArgs,
        runMain tree ops ⟨account, .queues sub, access_key⟩
          = { storage_credentials := resolveCredential account access_key
              serviceClients :=
                [.queueService account (resolveCredential account access_key)]
              opCalls :=
                [(.service (.queueService account
                    (resolveCredential account access_key)), sub)]
              printed := none
              result := ops (.service (.queueService account
                (resolveCredential account access_key))) sub })
  ∧ (∀ sub : FamilyArgs,
        runMain tree ops ⟨account, .datalake sub, access_key⟩
          = { storage_credentials := resolveCredential account access_key
              serviceClients :=
                [.dataLake account (resolveCredential account access_key)]
              opCalls :=
                [(.service (.dataLake account
                    (resolveCredential account access_key)), sub)]
              printed := none
              result := ops (.service (.dataLake account
                (resolveCredential account access_key))) sub })
  ∧ (∀ sub : FamilyArgs,
        runMain tree ops ⟨account, .tables sub, access_key⟩
          = { storage_credentials := resolveCredential account access_key
              serviceClients :=
                [.tableService account (resolveCredential account access_key)]
              opCalls :=
                [(.service (.tableService account
                    (resolveCredential account access_key)), sub)]
              printed := none
              result := ops (.service (.tableService account
                (resolveCredential account access_key))) sub }) :=
  ⟨fun _ => rfl, fun _ _ => rfl, fun _ => rfl, fun _ => rfl, fun _ => rfl⟩

/-- C10: during rendering a child subcommand is excluded precisely by the
literal name comparison with "readme": the hidden attribute is never
consulted (flipping all `hide` flags changes nothing), any child named
"readme" is skipped entirely together with its subtree, and any child with a
different name contributes its full recursive render to the parent's
output. -/
theorem c10_readme_skip_by_name :
    (∀ (f : Bool → Bool) (t : CommandNode) (ns : List Str),
        build_readme (t.mapHide f) ns = build_readme t ns)
  ∧ (∀ (t : CommandNode) (ns : List Str) (c : CommandNode)
        (pre rest : List CommandNode),
        t.subcommands = pre ++ c :: rest → c.name = str "readme" →
          build_readme t ns = build_readme (t.withSubs (pre ++ rest)) ns)
  ∧ (∀ (t : CommandNode) (ns : List Str) (c : CommandNode)
        (pre rest : List CommandNode),
        t.subcommands = pre ++ c :: rest → c.name ≠ str "readme" →
          ∃ x y, build_readme t ns
            = x ++ build_readme c (ns ++ nameAndPos t) ++ y) :=
  ⟨fun f t ns => build_readme_mapHide f t ns,
    fun t ns c pre rest h1 h2 =>
      build_readme_erase_readme_child t ns c h2 pre rest h1,
    fun t ns c pre rest h1 h2 =>
      build_readme_keeps_other_child t ns c h2 pre rest h1⟩

/-- Witness for C10: deleting the "readme"-named (hidden) child of `exC10`
leaves the rendered output unchanged. -/
theorem c10_readme_skip_by_name_witness :
    build_readme exC10 [] = build_readme (exC10.withSubs ([] ++ [])) [] :=
  c10_readme_skip_by_name.2.1 exC10 []
    (.mk (str "readme") [] (str "h") true []) [] [] rfl (by decide)
